import Mathlib

/-!
Verification development for the pycyc cyclic-spectroscopy solver.

The Python arrays are modelled as total functions out of ℕ (1-D) or ℕ × ℕ
(2-D, curried) together with explicit size parameters; machine floats are
modelled as real numbers, complex128 as ℂ.  The scipy FFT routines are
modelled by the exact discrete Fourier transform formulas they compute
(including pocketfft's treatment of the DC and Nyquist bins in `irfft`).
Stateful numpy code (in-place slice assignment through views) is modelled
by explicit state passing: a function that mutates an argument returns the
post-state of that argument alongside its value.
-/

noncomputable section

open Finset

/-- Truncation toward zero, the behaviour of Python's `int()` on a float. -/
def pytrunc (x : ℝ) : ℤ := if 0 ≤ x then ⌊x⌋ else ⌈x⌉

/-- The phase factor `exp(2*pi*I*a/n)` from which all DFT kernels are built. -/
def cexp (n : ℕ) (a : ℤ) : ℂ := Complex.exp (2 * Real.pi * Complex.I * a / n)

/-- Forward DFT of length `n`, as computed by `scipy.fft.fft`:
`X_k = sum_j x_j exp(-2*pi*I*j*k/n)` (no normalization). -/
def fft (n : ℕ) (x : ℕ → ℂ) : ℕ → ℂ :=
  fun k => ∑ j ∈ range n, x j * cexp n (-((j : ℤ) * k))

/-- Inverse DFT of length `n`, as computed by `scipy.fft.ifft`:
`x_j = (1/n) sum_k X_k exp(2*pi*I*j*k/n)`. -/
def ifft (n : ℕ) (x : ℕ → ℂ) : ℕ → ℂ :=
  fun j => (∑ k ∈ range n, x k * cexp n ((j : ℤ) * k)) / n

/-- Real-input DFT, as computed by `scipy.fft.rfft`; the result is the first
`n/2 + 1` coefficients of the full DFT of the real input. -/
def rfft (n : ℕ) (p : ℕ → ℝ) : ℕ → ℂ :=
  fun k => ∑ j ∈ range n, (p j : ℂ) * cexp n (-((j : ℤ) * k))

/-- Inverse of `rfft` producing a real signal of length `2*(m-1)` from `m`
harmonic coefficients, as computed by `scipy.fft.irfft` (pocketfft c2r):
the imaginary parts of the DC bin `c 0` and the Nyquist bin `c (m-1)` are
ignored, every interior bin contributes twice its hermitian-symmetric pair. -/
def irfft (m : ℕ) (c : ℕ → ℂ) : ℕ → ℝ :=
  fun j =>
    ((c 0).re + (-1 : ℝ) ^ j * (c (m - 1)).re +
      ∑ k ∈ Finset.Ico 1 (m - 1), 2 * (c k * cexp (2 * (m - 1)) ((j : ℤ) * k)).re) /
      (2 * (m - 1))

/-- pycyc `ps2cs`: `rfft` along the phase axis of a periodic spectrum with
`nbin` phase bins, divided by the length `nbin/2 + 1` of the output axis
(the normalization convention inherited from Cyclic-Modelling). -/
def ps2cs (nbin : ℕ) (ps : ℕ → ℕ → ℝ) : ℕ → ℕ → ℂ :=
  fun i h => rfft nbin (ps i) h / ((nbin / 2 + 1 : ℕ) : ℂ)

/-- pycyc `cs2ps`: `(nharm - 1) * 2` times `irfft` along the harmonic axis of
a cyclic spectrum with `nharm` harmonics. -/
def cs2ps (nharm : ℕ) (cs : ℕ → ℕ → ℂ) : ℕ → ℕ → ℝ :=
  fun i j => (((nharm - 1) * 2 : ℕ) : ℝ) * irfft nharm (cs i) j

/-- pycyc `cs2cc`: `cs.shape[0] * ifft(cs, axis=0)`. -/
def cs2cc (nchan : ℕ) (cs : ℕ → ℕ → ℂ) : ℕ → ℕ → ℂ :=
  fun l h => (nchan : ℂ) * ifft nchan (fun k => cs k h) l

/-- pycyc `cc2cs`: `fft(cc, axis=0) / cs.shape[0]`. -/
def cc2cs (nchan : ℕ) (cc : ℕ → ℕ → ℂ) : ℕ → ℕ → ℂ :=
  fun k h => fft nchan (fun l => cc l h) k / (nchan : ℂ)

/-- pycyc `time2freq`: `fft(ht) / n`. -/
def time2freq (n : ℕ) (ht : ℕ → ℂ) : ℕ → ℂ :=
  fun k => fft n ht k / (n : ℂ)

/-- pycyc `freq2time`: `n * ifft(hf)`. -/
def freq2time (n : ℕ) (hf : ℕ → ℂ) : ℕ → ℂ :=
  fun j => (n : ℂ) * ifft n hf j

/-- pycyc `chan_limits_cs`: the valid channel band of harmonic `iharm` in a
cyclic spectrum with `nchan` channels, bandwidth `bw` MHz and folding
frequency `ref_freq` Hz.  Mirrors the source line by line: the aspect
variable, Python `int()` truncation, and the clamp to `nchan/2`. -/
def chan_limits_cs (iharm nchan : ℕ) (bw ref_freq : ℝ) : ℤ × ℤ :=
  let inv_aspect := ref_freq * (nchan : ℝ) * ((iharm : ℝ) / (bw * 1e6))
  let inv_aspect := inv_aspect - 1
  let inv_aspect := inv_aspect / 2
  let ichan := pytrunc inv_aspect + 1
  let ichan := if (ichan : ℝ) > (nchan : ℝ) / 2 then pytrunc ((nchan : ℝ) / 2) else ichan
  (ichan, (nchan : ℤ) - ichan)

/-- pycyc `cyclic_padding`: zero, in every harmonic column `ih < nharm`, the
channels outside the band `[imin, imax)` given by `chan_limits_cs`.  Entries
outside the array extent (`i ≥ nchan` or `h ≥ nharm`) do not exist in the
numpy array and are left untouched by the model. -/
def cyclic_padding {α : Type} [Zero α] (nchan nharm : ℕ) (bw ref_freq : ℝ)
    (cs : ℕ → ℕ → α) : ℕ → ℕ → α :=
  fun i h =>
    if h < nharm ∧ i < nchan then
      (if (chan_limits_cs h nchan bw ref_freq).1 ≤ (i : ℤ) ∧
          (i : ℤ) < (chan_limits_cs h nchan bw ref_freq).2 then cs i h else 0)
    else cs i h

/-- pycyc `cyclic_shear_cs`: transform to the lag domain, multiply by the
phase ramp `shear * (-2*pi) * tau(lag) * alpha(harmonic)`, transform back.
Lags at or above `nlag/2 + 1` wrap around to negative delays.  Returns the
sheared spectrum together with the phase matrix. -/
def cyclic_shear_cs (nchan nharm : ℕ) (cs : ℕ → ℕ → ℂ) (shear : ℝ)
    (bw ref_freq : ℝ) : (ℕ → ℕ → ℂ) × (ℕ → ℕ → ℝ) :=
  let dtau := 1 / (bw * 1e6)
  let dalpha := ref_freq
  let cc := cs2cc nchan cs
  let lags : ℕ → ℤ := fun l => if nchan / 2 + 1 ≤ l then (l : ℤ) - nchan else (l : ℤ)
  let tau1 : ℕ → ℝ := fun l => dtau * (lags l : ℝ)
  let alpha1 : ℕ → ℝ := fun h => dalpha * (h : ℝ)
  let phases : ℕ → ℕ → ℝ := fun l h => shear * (-2 * Real.pi) * tau1 l * alpha1 h
  let cc := fun l h => cc l h * Complex.exp (Complex.I * (phases l h : ℂ))
  (cc2cs nchan cc, phases)

/-- Result record of pycyc `make_model_cs` (model spectrum, the two sheared
filters, and the phase matrix of the negative shear). -/
structure ModelCS where
  cs : ℕ → ℕ → ℂ
  csplus : ℕ → ℕ → ℂ
  csminus : ℕ → ℕ → ℂ
  minus_phases : ℕ → ℕ → ℝ

/-- pycyc `make_model_cs`: broadcast the harmonic profile `s0` over channels
and the frequency filter `hf` over harmonics, shear the broadcast filter by
`+0.5` and `-0.5` harmonics, combine as `s0 * csplus * conj(csminus)`, and
apply cyclic padding. -/
def make_model_cs (nchan nharm : ℕ) (hf s0 : ℕ → ℂ) (bw ref_freq : ℝ) : ModelCS :=
  let cs : ℕ → ℕ → ℂ := fun _i h => s0 h
  let cs_tmp : ℕ → ℕ → ℂ := fun i _h => hf i
  let plus := cyclic_shear_cs nchan nharm cs_tmp 0.5 bw ref_freq
  let minus := cyclic_shear_cs nchan nharm cs_tmp (-0.5) bw ref_freq
  let cs := fun i h => cs i h * plus.1 i h * (starRingEnd ℂ) (minus.1 i h)
  { cs := cyclic_padding nchan nharm bw ref_freq cs
    csplus := plus.1
    csminus := minus.1
    minus_phases := minus.2 }

/-- pycyc `fscrunch_cs`.  In the source, `cstmp = cs[:]` is a numpy view of
the caller's array, so the in-place zeroing done by `cyclic_padding` lands in
the caller's array; the model therefore returns both the channel sum (the
Python return value) and the post-state of the argument array. -/
def fscrunch_cs {α : Type} [AddCommMonoid α] (nchan nharm : ℕ)
    (bw ref_freq : ℝ) (cs : ℕ → ℕ → α) : (ℕ → α) × (ℕ → ℕ → α) :=
  let cstmp := cyclic_padding nchan nharm bw ref_freq cs
  (fun h => ∑ i ∈ range nchan, cstmp i h, cstmp)

/-- pycyc `optimize_profile`: closed-form least-squares profile estimate.
`s0 = fscrunch(cs*H(-)*conj(H(+))) / fscrunch(|H(-)|^2*|H(+)|^2)`, with
harmonics whose (real) denominator is non-positive overwritten by zero. -/
def optimize_profile (nchan nharm : ℕ) (cs : ℕ → ℕ → ℂ) (hf : ℕ → ℂ)
    (bw ref_freq : ℝ) : ℕ → ℂ :=
  let cs1 : ℕ → ℕ → ℂ := fun i _h => hf i
  let csplus := (cyclic_shear_cs nchan nharm cs1 0.5 bw ref_freq).1
  let csminus := (cyclic_shear_cs nchan nharm cs1 (-0.5) bw ref_freq).1
  let cshmhp : ℕ → ℕ → ℂ := fun i h => cs i h * csminus i h * (starRingEnd ℂ) (csplus i h)
  let maghmhp : ℕ → ℕ → ℝ := fun i h => (Complex.abs (csminus i h) * Complex.abs (csplus i h)) ^ 2
  let denom := (fscrunch_cs nchan nharm bw ref_freq maghmhp).1
  let numer := (fscrunch_cs nchan nharm bw ref_freq cshmhp).1
  fun h => if denom h ≤ 0 then 0 else numer h / ((denom h : ℝ) : ℂ)

/-- pycyc `get_params`: encode a complex time-domain filter of length `nlag`
into the real parameter vector of length `2*nlag - 1`, interleaving real and
imaginary parts (`ht.view("float")`) except at the reference lag `rindex`,
which contributes only its real part. -/
def get_params (ht : ℕ → ℂ) (rindex : ℕ) : ℕ → ℝ :=
  fun j =>
    if j < 2 * rindex then
      (if j % 2 = 0 then (ht (j / 2)).re else (ht (j / 2)).im)
    else if j = 2 * rindex then (ht rindex).re
    else
      (if (j - (2 * rindex + 1)) % 2 = 0 then
        (ht (rindex + 1 + (j - (2 * rindex + 1)) / 2)).re
      else (ht (rindex + 1 + (j - (2 * rindex + 1)) / 2)).im)

/-- pycyc `get_ht`: decode a real parameter vector back into a complex
time-domain filter; the sample at the reference lag `rindex` is rebuilt from
a single real parameter, so it is forced real. -/
def get_ht (params : ℕ → ℝ) (rindex : ℕ) : ℕ → ℂ :=
  fun i =>
    if i < rindex then ⟨params (2 * i), params (2 * i + 1)⟩
    else if i = rindex then ((params (2 * rindex) : ℝ) : ℂ)
    else ⟨params (2 * rindex + 1 + 2 * (i - (rindex + 1))),
          params (2 * rindex + 1 + 2 * (i - (rindex + 1)) + 1)⟩

/-- The solver fields read by pycyc `cyclic_merit_lag`: array extents, band
geometry parameters, the reference-lag index, the reference harmonic profile
`s0` and the measured cyclic spectrum `cs`. -/
structure MeritContext where
  nchan : ℕ
  nharm : ℕ
  rindex : ℕ
  bw : ℝ
  ref_freq : ℝ
  s0 : ℕ → ℂ
  cs : ℕ → ℕ → ℂ

/-- The merit value computed by pycyc `cyclic_merit_lag`: decode the
parameter vector, transform to the frequency domain, build the model cyclic
spectrum, and return `2 * sum(|model[:, 1:] - cs[:, 1:]|^2)` (the slice drops
the zeroth-harmonic column). -/
def cyclic_merit_lag (CS : MeritContext) (x : ℕ → ℝ) : ℝ :=
  let ht := get_ht x CS.rindex
  let hf := time2freq CS.nchan ht
  let model := (make_model_cs CS.nchan CS.nharm hf CS.s0 CS.bw CS.ref_freq).cs
  2 * ∑ i ∈ range CS.nchan, ∑ h ∈ Finset.Ico 1 CS.nharm,
      Complex.abs (model i h - CS.cs i h) ^ 2

/-- Band-restricted denominator of the profile estimate described in the
spec: `|H(-)|^2 |H(+)|^2` summed over the valid channel band of harmonic `h`
computed by `chan_limits_cs`. -/
def profile_denom_band (nchan nharm : ℕ) (hf : ℕ → ℂ) (bw ref_freq : ℝ) (h : ℕ) : ℝ :=
  let cs1 : ℕ → ℕ → ℂ := fun i _h => hf i
  let csplus := (cyclic_shear_cs nchan nharm cs1 0.5 bw ref_freq).1
  let csminus := (cyclic_shear_cs nchan nharm cs1 (-0.5) bw ref_freq).1
  ∑ i ∈ (range nchan).filter (fun i : ℕ =>
      (chan_limits_cs h nchan bw ref_freq).1 ≤ (i : ℤ) ∧
      (i : ℤ) < (chan_limits_cs h nchan bw ref_freq).2),
    (Complex.abs (csminus i h) * Complex.abs (csplus i h)) ^ 2

/-- Band-restricted numerator of the profile estimate described in the spec:
`cs * H(-) * conj(H(+))` summed over the valid channel band of harmonic `h`
computed by `chan_limits_cs`. -/
def profile_numer_band (nchan nharm : ℕ) (cs : ℕ → ℕ → ℂ) (hf : ℕ → ℂ)
    (bw ref_freq : ℝ) (h : ℕ) : ℂ :=
  let cs1 : ℕ → ℕ → ℂ := fun i _h => hf i
  let csplus := (cyclic_shear_cs nchan nharm cs1 0.5 bw ref_freq).1
  let csminus := (cyclic_shear_cs nchan nharm cs1 (-0.5) bw ref_freq).1
  ∑ i ∈ (range nchan).filter (fun i : ℕ =>
      (chan_limits_cs h nchan bw ref_freq).1 ≤ (i : ℤ) ∧
      (i : ℤ) < (chan_limits_cs h nchan bw ref_freq).2),
    cs i h * csminus i h * (starRingEnd ℂ) (csplus i h)

/-- One incoming data block of `CyclicSolver.load`, after the archive read
and edge preprocessing: its four array extents (subintegrations,
polarizations, channels, phase bins) and its entries. -/
structure DataBlock where
  nspec : ℕ
  npol : ℕ
  nchan : ℕ
  nbin : ℕ
  entries : ℕ → ℕ → ℕ → ℕ → ℝ

/-- Accumulation state of `CyclicSolver.load`: the shape of the data loaded
so far and the accumulated blocks (`self.data`, concatenated along the
subintegration axis, modelled as the list of appended blocks). -/
structure LoadState where
  nspec : ℕ
  npol : ℕ
  nchan : ℕ
  nbin : ℕ
  data : List DataBlock

/-- The assertion failures CyclicSolver.load can raise when a later segment
disagrees in shape with the already accumulated data. -/
inductive LoadError where
  | npolMismatch : LoadError
  | nchanMismatch : LoadError
  | nbinMismatch : LoadError

/-- Shape-accumulation logic of pycyc `CyclicSolver.load` (the archive read
and the channel preprocessing are abstracted into the incoming `DataBlock`).
On the first load the shape is recorded; on later loads the three `assert`
statements are checked in source order, and only when all pass is the block
appended to `self.data` and `self.nspec` increased. -/
def CyclicSolver_load (s : LoadState) (d : DataBlock) : Except LoadError LoadState :=
  if s.nspec = 0 then
    Except.ok ⟨d.nspec, d.npol, d.nchan, d.nbin, [d]⟩
  else if d.npol ≠ s.npol then Except.error LoadError.npolMismatch
  else if d.nchan ≠ s.nchan then Except.error LoadError.nchanMismatch
  else if d.nbin ≠ s.nbin then Except.error LoadError.nbinMismatch
  else Except.ok ⟨s.nspec + d.nspec, s.npol, s.nchan, s.nbin, s.data ++ [d]⟩

/-- The `step_factor /= acceleration` and `tanh(step_factor * acceleration)`
constant of the cycfista driver script. -/
def acceleration : ℝ := 1.2

/-- The `min_step_factor` floor of the cycfista driver script. -/
def min_step_factor : ℝ := 0.5

/-- The loop state carried between iterations of the cycfista driver
(wavefield type `α`): current iterate, momentum point, momentum coefficient,
running Lipschitz maximum, best-known merit and iterate, step factor, the
previous iteration's merit, and the step size that will be passed to the
next `take_fista_step` call. -/
structure FistaState (α : Type) where
  x_n : α
  y_n : α
  t_n : ℝ
  L_max : ℝ
  best_merit : ℝ
  best_x : α
  step_factor : ℝ
  prev_merit : ℝ
  alpha : ℝ

/-- The values produced inside one cycfista iteration by the external
collaborators: the tuple returned by `fista.take_fista_step` (new iterate,
new momentum point, Lipschitz estimate `L`, momentum coefficient) and the
value of `CS.get_reduced_chisq()` after that step. -/
structure StepResult (α : Type) where
  x : α
  y : α
  L : ℝ
  t : ℝ
  merit : ℝ

/-- Initial cycfista driver state (script lines before the loop):
`alpha = 20`, `L_max = 1/alpha`, `step_factor = 1`, and best/previous merit
seeded from the starting reduced chi-squared. -/
def cycfista_init {α : Type} (merit0 : ℝ) (x0 : α) : FistaState α :=
  { x_n := x0, y_n := x0, t_n := 1, L_max := 1 / 20, best_merit := merit0,
    best_x := x0, step_factor := 1, prev_merit := merit0, alpha := 20 }

/-- One iteration of the cycfista driver loop, given the results of the
external calls: update `L_max`, record a new best iterate on strict merit
improvement, shrink or grow `step_factor` according to whether the merit
worsened, and set `alpha = step_factor / L` for the next step. -/
def cycfista_step {α : Type} (s : FistaState α) (r : StepResult α) : FistaState α :=
  let L_max := if r.L > s.L_max then r.L else s.L_max
  let best_merit := if r.merit < s.best_merit then r.merit else s.best_merit
  let best_x := if r.merit < s.best_merit then r.x else s.best_x
  let step_factor :=
    if r.merit > s.prev_merit then
      (if s.step_factor > min_step_factor then s.step_factor / acceleration
       else s.step_factor)
    else Real.tanh (s.step_factor * acceleration)
  { x_n := r.x, y_n := r.y, t_n := r.t, L_max := L_max, best_merit := best_merit,
    best_x := best_x, step_factor := step_factor, prev_merit := r.merit,
    alpha := step_factor / r.L }

/-- Delta-function periodic spectrum used as a concrete evaluation input. -/
def psdelta : ℕ → ℕ → ℝ := fun _i j => if j = 0 then 1 else 0

/-! Helper lemmas about the DFT kernel `cexp`. -/

theorem cexp_zero (n : ℕ) : cexp n 0 = 1 := by
  unfold cexp
  simp

theorem cexp_mul_nat (n : ℕ) (a : ℤ) (k : ℕ) : cexp n (a * k) = cexp n a ^ k := by
  unfold cexp
  rw [← Complex.exp_nat_mul]
  congr 1
  push_cast
  ring

theorem cexp_dvd_eq_one (n : ℕ) (hn : 0 < n) (a : ℤ) (hdvd : (n : ℤ) ∣ a) :
    cexp n a = 1 := by
  obtain ⟨t, rfl⟩ := hdvd
  unfold cexp
  have hn' : (n : ℂ) ≠ 0 := Nat.cast_ne_zero.mpr hn.ne'
  have harg : 2 * (Real.pi : ℂ) * Complex.I * (((n : ℤ) * t : ℤ) : ℂ) / (n : ℂ) =
      (t : ℂ) * (2 * (Real.pi : ℂ) * Complex.I) := by
    field_simp
    ring
  rw [harg]
  exact Complex.exp_int_mul_two_pi_mul_I t

theorem cexp_ne_one (n : ℕ) (hn : 0 < n) (a : ℤ) (hnd : ¬ (n : ℤ) ∣ a) :
    cexp n a ≠ 1 := by
  intro h
  unfold cexp at h
  rw [Complex.exp_eq_one_iff] at h
  obtain ⟨k, hk⟩ := h
  have hn' : (n : ℂ) ≠ 0 := Nat.cast_ne_zero.mpr hn.ne'
  have hne : (2 * (Real.pi : ℂ) * Complex.I) ≠ 0 := by
    have hπ : (Real.pi : ℂ) ≠ 0 := by
      exact_mod_cast Complex.ofReal_ne_zero.mpr Real.pi_ne_zero
    simp [hπ, Complex.I_ne_zero]
  have h4 : (2 * (Real.pi : ℂ) * Complex.I) * (a : ℂ) =
      (2 * (Real.pi : ℂ) * Complex.I) * ((k : ℂ) * (n : ℂ)) := by
    have h3 : 2 * (Real.pi : ℂ) * Complex.I * (a : ℂ) / (n : ℂ) * (n : ℂ) =
        (k : ℂ) * (2 * (Real.pi : ℂ) * Complex.I) * (n : ℂ) := by rw [hk]
    field_simp at h3
    linear_combination h3
  have key : (a : ℂ) = ((k * n : ℤ) : ℂ) := by
    have := mul_left_cancel₀ hne h4
    push_cast
    exact this
  have : a = k * n := by exact_mod_cast key
  exact hnd ⟨k, by rw [this]; ring⟩

theorem cexp_geom_sum (n : ℕ) (hn : 0 < n) (d : ℤ) :
    ∑ k ∈ range n, cexp n (d * k) = if (n : ℤ) ∣ d then (n : ℂ) else 0 := by
  by_cases hdvd : (n : ℤ) ∣ d
  · rw [if_pos hdvd]
    have h1 : ∀ k ∈ range n, cexp n (d * (k : ℕ)) = 1 :=
      fun k _ => cexp_dvd_eq_one n hn _ (hdvd.mul_right _)
    exact (Finset.sum_congr rfl h1).trans (by simp)
  · rw [if_neg hdvd]
    rw [Finset.sum_congr rfl (fun k _ => cexp_mul_nat n d k)]
    rw [geom_sum_eq (cexp_ne_one n hn d hdvd)]
    have hpow : cexp n d ^ n = 1 := by
      rw [← cexp_mul_nat]
      exact cexp_dvd_eq_one n hn (d * n) ⟨d, by ring⟩
    rw [hpow]
    simp

theorem cexp_add (n : ℕ) (a b : ℤ) : cexp n (a + b) = cexp n a * cexp n b := by
  unfold cexp
  rw [← Complex.exp_add]
  congr 1
  push_cast
  ring

theorem cexp_congr_dvd (n : ℕ) (hn : 0 < n) (a b : ℤ) (h : (n : ℤ) ∣ (a - b)) :
    cexp n a = cexp n b := by
  rw [show a = b + (a - b) by ring, cexp_add, cexp_dvd_eq_one n hn _ h, mul_one]

theorem cexp_conj (n : ℕ) (a : ℤ) :
    (starRingEnd ℂ) (cexp n a) = cexp n (-a) := by
  unfold cexp
  rw [← Complex.exp_conj]
  congr 1
  simp [map_div₀, map_ofNat]

theorem rfft_conj_symm (n : ℕ) (hn : 0 < n) (p : ℕ → ℝ) (k : ℕ) (hk : k ≤ n) :
    rfft n p (n - k) = (starRingEnd ℂ) (rfft n p k) := by
  unfold rfft
  rw [map_sum]
  apply Finset.sum_congr rfl
  intro l _
  rw [map_mul, Complex.conj_ofReal, cexp_conj]
  congr 1
  apply cexp_congr_dvd n hn
  refine ⟨-(l : ℤ), ?_⟩
  have : ((n - k : ℕ) : ℤ) = (n : ℤ) - k := by omega
  rw [this]
  ring

theorem irfft_rfft (m : ℕ) (hm : 0 < m) (p : ℕ → ℝ) (j : ℕ) (hj : j < 2 * m) :
    irfft (m + 1) (rfft (2 * m) p) j = p j := by
  have hn : 0 < 2 * m := by omega
  set n := 2 * m with hndef
  set C : ℕ → ℂ := rfft n p with hC
  set T : ℕ → ℂ := fun k => C k * cexp n ((j : ℤ) * k) with hT
  have hS : ∑ k ∈ range n, T k = (n : ℂ) * (p j : ℂ) := by
    have h1 : ∑ k ∈ range n, T k
        = ∑ k ∈ range n, ∑ l ∈ range n, (p l : ℂ) * cexp n (((j : ℤ) - l) * k) :=
      Finset.sum_congr rfl (fun k _ => by
        simp only [hT, hC, rfft, Finset.sum_mul]
        exact Finset.sum_congr rfl (fun l _ => by
          rw [mul_assoc, ← cexp_add]
          congr 2
          ring))
    have h2 : ∀ l ∈ range n, ∑ k ∈ range n, (p l : ℂ) * cexp n (((j : ℤ) - l) * k)
        = (p l : ℂ) * (if (n : ℤ) ∣ ((j : ℤ) - l) then (n : ℂ) else 0) :=
      fun l _ => by rw [← Finset.mul_sum, cexp_geom_sum n hn]
    rw [h1, Finset.sum_comm]
    rw [Finset.sum_congr rfl h2]
    rw [Finset.sum_eq_single j]
    · simp
      ring
    · intro l hl hlj
      have hl' : l < n := Finset.mem_range.mp hl
      have hne : (j : ℤ) - l ≠ 0 := by omega
      have hnd : ¬ (n : ℤ) ∣ ((j : ℤ) - l) := by
        intro hdvd
        have h3 : (n : ℤ) ≤ |(j : ℤ) - l| :=
          Int.le_of_dvd (abs_pos.mpr hne) ((dvd_abs _ _).mpr hdvd)
        have h4 : |(j : ℤ) - l| < n := abs_lt.mpr ⟨by omega, by omega⟩
        omega
      rw [if_neg hnd, mul_zero]
    · intro hj'
      exact absurd (Finset.mem_range.mpr hj) hj'
  have hgen : ∀ k, k ≤ n → T (n - k) = (starRingEnd ℂ) (T k) := by
    intro k hk
    rw [hT]
    simp only [map_mul]
    congr 1
    · rw [hC]
      exact rfft_conj_symm n hn p k hk
    · rw [cexp_conj]
      apply cexp_congr_dvd n hn
      refine ⟨(j : ℤ), ?_⟩
      have hcast : ((n - k : ℕ) : ℤ) = (n : ℤ) - k := by omega
      rw [hcast]
      ring
  have htail : ∑ k ∈ Finset.Ico (m + 1) n, (T k).re
      = ∑ k ∈ Finset.Ico 1 m, (T k).re := by
    have himg : Finset.Ico (m + 1) n = Finset.image (fun k => n - k) (Finset.Ico 1 m) := by
      ext a
      simp only [Finset.mem_image, Finset.mem_Ico]
      constructor
      · intro h
        exact ⟨n - a, ⟨by omega, by omega⟩, by omega⟩
      · rintro ⟨b, hb, rfl⟩
        omega
    rw [himg, Finset.sum_image (fun x hx y hy hxy => by
      have hx' := Finset.mem_Ico.mp hx
      have hy' := Finset.mem_Ico.mp hy
      omega)]
    apply Finset.sum_congr rfl
    intro k hk
    have hk' : 1 ≤ k ∧ k < m := Finset.mem_Ico.mp hk
    rw [hgen k (by omega), Complex.conj_re]
  have hsplit : (∑ k ∈ range n, T k).re
      = (T 0).re + ((∑ k ∈ Finset.Ico 1 m, (T k).re) + ((T m).re
        + ∑ k ∈ Finset.Ico (m + 1) n, (T k).re)) := by
    rw [Complex.re_sum, Finset.range_eq_Ico]
    rw [← Finset.sum_Ico_consecutive (fun k => (T k).re)
      (by omega : 0 ≤ m + 1) (by omega : m + 1 ≤ n)]
    rw [Finset.sum_eq_sum_Ico_succ_bot (by omega : 0 < m + 1)]
    rw [Finset.sum_Ico_succ_top (by omega : 1 ≤ m)]
    ring
  have hT0 : (T 0).re = (C 0).re := by
    rw [hT]
    simp [cexp_zero]
  have hTm : (T m).re = (-1 : ℝ) ^ j * (C m).re := by
    have hm' : (m : ℂ) ≠ 0 := Nat.cast_ne_zero.mpr hm.ne'
    have hcm : cexp n ((j : ℤ) * m) = (((-1 : ℝ) ^ j : ℝ) : ℂ) := by
      unfold cexp
      have harg : 2 * (Real.pi : ℂ) * Complex.I * (((j : ℤ) * m : ℤ) : ℂ) / ((n : ℕ) : ℂ)
          = (j : ℂ) * ((Real.pi : ℂ) * Complex.I) := by
        rw [hndef]
        push_cast
        field_simp
        ring
      rw [harg, Complex.exp_nat_mul, Complex.exp_pi_mul_I]
      push_cast
      ring
    rw [hT]
    simp only [hcm]
    rw [mul_comm, Complex.re_ofReal_mul]
  have hfinal : (∑ k ∈ range n, T k).re = (n : ℝ) * p j := by
    rw [hS]
    have : ((n : ℕ) : ℂ) * ((p j : ℝ) : ℂ) = (((n : ℝ) * p j : ℝ) : ℂ) := by
      push_cast
      ring
    rw [this, Complex.ofReal_re]
  unfold irfft
  have hmm : m + 1 - 1 = m := by omega
  rw [hmm]
  have hnum : (C 0).re + (-1 : ℝ) ^ j * (C m).re +
      ∑ k ∈ Finset.Ico 1 m, 2 * (C k * cexp (2 * m) ((j : ℤ) * k)).re
      = (n : ℝ) * p j := by
    rw [← hfinal, hsplit, htail, hT0, hTm]
    have h2sum : ∑ k ∈ Finset.Ico 1 m, 2 * (C k * cexp (2 * m) ((j : ℤ) * k)).re
        = 2 * ∑ k ∈ Finset.Ico 1 m, (T k).re := by
      rw [Finset.mul_sum]
    rw [h2sum]
    ring
  rw [hnum]
  have hm' : ((m : ℕ) : ℝ) ≠ 0 := Nat.cast_ne_zero.mpr hm.ne'
  rw [hndef]
  push_cast
  field_simp

theorem irfft_div (m' : ℕ) (c : ℕ → ℂ) (K : ℝ) (j : ℕ) :
    irfft m' (fun k => c k / ((K : ℝ) : ℂ)) j = irfft m' c j / K := by
  unfold irfft
  simp only [Complex.div_ofReal_re, div_mul_eq_mul_div]
  have hs : ∑ k ∈ Finset.Ico 1 (m' - 1),
        2 * ((c k * cexp (2 * (m' - 1)) ((j : ℤ) * k)).re / K)
      = (∑ k ∈ Finset.Ico 1 (m' - 1),
          2 * (c k * cexp (2 * (m' - 1)) ((j : ℤ) * k)).re) / K := by
    rw [Finset.sum_div]
    exact Finset.sum_congr rfl (fun k _ => by rw [mul_div_assoc])
  rw [hs]
  ring

theorem fista_best_merit_le {α : Type} (s : FistaState α) (r : StepResult α) :
    (cycfista_step s r).best_merit ≤ s.best_merit := by
  by_cases h : r.merit < s.best_merit
  · simp only [cycfista_step, if_pos h]
    exact h.le
  · simp only [cycfista_step, if_neg h]
    exact le_rfl

/-- C7: in the cycfista driver loop, each iteration sets the recorded best
merit to the minimum of its previous value and the current reduced
chi-squared (hence it is non-increasing across any run), and `best_x` is
replaced by the new iterate exactly when that minimum strictly improves. -/
theorem cycfista_best_merit_spec {α : Type} (s : FistaState α) (r : StepResult α) :
    (cycfista_step s r).best_merit = min s.best_merit r.merit ∧
    (cycfista_step s r).best_merit ≤ s.best_merit ∧
    (cycfista_step s r).best_x = (if r.merit < s.best_merit then r.x else s.best_x) ∧
    ∀ rs : List (StepResult α),
      (List.foldl cycfista_step s rs).best_merit ≤ s.best_merit := by
  refine ⟨?_, fista_best_merit_le s r, ?_, ?_⟩
  · by_cases h : r.merit < s.best_merit
    · simp only [cycfista_step, if_pos h]
      exact (min_eq_right h.le).symm
    · simp only [cycfista_step, if_neg h]
      exact (min_eq_left (not_lt.mp h)).symm
  · by_cases h : r.merit < s.best_merit <;> simp only [cycfista_step, if_pos, if_neg, h]
  · intro rs
    induction rs generalizing s with
    | nil => exact le_rfl
    | cons a tl ih =>
        calc (List.foldl cycfista_step s (a :: tl)).best_merit
            = (List.foldl cycfista_step (cycfista_step s a) tl).best_merit := rfl
          _ ≤ (cycfista_step s a).best_merit := ih _
          _ ≤ s.best_merit := fista_best_merit_le s a

/-- C6 (counterexample): starting from the driver's initial state
(`alpha = 20`, `L_max = 1/20`, `step_factor = 1`, starting merit 1), one
iteration whose step returns the Lipschitz estimate `L = 0.01 < L_max` and
merit 2 sets `alpha = step_factor / L = (1/1.2)/0.01`, which differs from
`step_factor / L_max = (1/1.2)/(1/20)`: the driver divides by the latest
estimate `L`, not by the running maximum `L_max`. -/
theorem cycfista_alpha_ne_div_Lmax :
    ¬ ((cycfista_step (cycfista_init (1 : ℝ) (0 : ℝ))
          { x := 0, y := 0, L := 0.01, t := 1, merit := 2 }).alpha =
        (cycfista_step (cycfista_init (1 : ℝ) (0 : ℝ))
          { x := 0, y := 0, L := 0.01, t := 1, merit := 2 }).step_factor /
        (cycfista_step (cycfista_init (1 : ℝ) (0 : ℝ))
          { x := 0, y := 0, L := 0.01, t := 1, merit := 2 }).L_max) := by
  have h1 : ¬ ((0.01 : ℝ) > 1 / 20) := by norm_num
  have h2 : (2 : ℝ) > 1 := by norm_num
  have h3 : (1 : ℝ) > min_step_factor := by norm_num [min_step_factor]
  simp only [cycfista_step, cycfista_init, h1, h2, h3, if_true, if_false,
    iff_true, iff_false, ite_true, ite_false]
  norm_num [acceleration]

/-- C6 (amended): after each cycfista iteration the step size for the next
step equals the new step factor divided by the Lipschitz estimate `L`
returned by this iteration's step; `L_max` is maintained as the running
maximum, and the claimed formula `alpha = step_factor / L_max` holds exactly
when the latest estimate attains that maximum. -/
theorem cycfista_alpha_spec {α : Type} (s : FistaState α) (r : StepResult α) :
    (cycfista_step s r).alpha = (cycfista_step s r).step_factor / r.L ∧
    (cycfista_step s r).L_max = max s.L_max r.L ∧
    (s.L_max ≤ r.L → (cycfista_step s r).alpha =
      (cycfista_step s r).step_factor / (cycfista_step s r).L_max) := by
  refine ⟨rfl, ?_, ?_⟩
  · by_cases h : r.L > s.L_max
    · simp only [cycfista_step, if_pos h]
      exact (max_eq_right h.le).symm
    · simp only [cycfista_step, if_neg h]
      exact (max_eq_left (not_lt.mp h)).symm
  · intro hle
    by_cases h : r.L > s.L_max
    · simp only [cycfista_step, if_pos h]
    · have heq : r.L = s.L_max := le_antisymm (not_lt.mp h) hle
      simp only [cycfista_step, if_neg h, heq]
      rw [if_neg (lt_irrefl s.L_max)]

theorem cycfista_alpha_spec_witness :
    (cycfista_init (1 : ℝ) (0 : ℝ)).L_max ≤ (1 : ℝ) ∧
    (cycfista_step (cycfista_init (1 : ℝ) (0 : ℝ))
        { x := 0, y := 0, L := 1, t := 1, merit := 2 }).alpha =
      (cycfista_step (cycfista_init (1 : ℝ) (0 : ℝ))
        { x := 0, y := 0, L := 1, t := 1, merit := 2 }).step_factor /
      (cycfista_step (cycfista_init (1 : ℝ) (0 : ℝ))
        { x := 0, y := 0, L := 1, t := 1, merit := 2 }).L_max :=
  ⟨by norm_num [cycfista_init],
   (cycfista_alpha_spec (cycfista_init (1 : ℝ) (0 : ℝ))
      { x := 0, y := 0, L := 1, t := 1, merit := 2 }).2.2
     (by norm_num [cycfista_init])⟩

/-- C8: when data has already been loaded (`nspec ≠ 0`) and a later segment
disagrees in polarization, channel or bin count, `CyclicSolver.load` fails
with an assertion error raised before the append, so no accumulated state
with the new block is ever produced. -/
theorem load_shape_mismatch (s : LoadState) (d : DataBlock) (hs : s.nspec ≠ 0)
    (hmis : d.npol ≠ s.npol ∨ d.nchan ≠ s.nchan ∨ d.nbin ≠ s.nbin) :
    (∃ e, CyclicSolver_load s d = Except.error e) ∧
    ∀ t, CyclicSolver_load s d ≠ Except.ok t := by
  have herr : ∃ e, CyclicSolver_load s d = Except.error e := by
    unfold CyclicSolver_load
    rw [if_neg hs]
    by_cases h1 : d.npol ≠ s.npol
    · exact ⟨_, if_pos h1⟩
    · rw [if_neg h1]
      by_cases h2 : d.nchan ≠ s.nchan
      · exact ⟨_, if_pos h2⟩
      · rw [if_neg h2]
        have h3 : d.nbin ≠ s.nbin := by tauto
        exact ⟨_, if_pos h3⟩
  obtain ⟨e, he⟩ := herr
  refine ⟨⟨e, he⟩, ?_⟩
  intro t ht
  rw [he] at ht
  exact Except.noConfusion ht

theorem load_shape_mismatch_witness :
    (⟨1, 2, 3, 4, []⟩ : LoadState).nspec ≠ 0 ∧
    (∃ e, CyclicSolver_load ⟨1, 2, 3, 4, []⟩
        ⟨1, 2, 5, 4, fun _ _ _ _ => 0⟩ = Except.error e) :=
  ⟨by decide,
   (load_shape_mismatch ⟨1, 2, 3, 4, []⟩ ⟨1, 2, 5, 4, fun _ _ _ _ => 0⟩
      (by decide) (Or.inr (Or.inl (by decide)))).1⟩

/-- C9: the encode/decode round trip `get_ht (get_params ht r) r` returns
`ht` at every index other than the reference lag `r`, returns the real part
of `ht r` at index `r`, and is the identity whenever the reference-lag
sample is already real. -/
theorem get_ht_get_params_roundtrip (ht : ℕ → ℂ) (n rindex : ℕ) (hr : rindex < n) :
    (∀ i, i ≠ rindex → get_ht (get_params ht rindex) rindex i = ht i) ∧
    get_ht (get_params ht rindex) rindex rindex = (((ht rindex).re : ℝ) : ℂ) ∧
    ((ht rindex).im = 0 → ∀ i, get_ht (get_params ht rindex) rindex i = ht i) := by
  have hmid : get_ht (get_params ht rindex) rindex rindex = (((ht rindex).re : ℝ) : ℂ) := by
    have hp : get_params ht rindex (2 * rindex) = (ht rindex).re := by
      unfold get_params
      rw [if_neg (by omega), if_pos rfl]
    unfold get_ht
    rw [if_neg (lt_irrefl rindex), if_pos rfl, hp]
  have hmain : ∀ i, i ≠ rindex → get_ht (get_params ht rindex) rindex i = ht i := by
    intro i hi
    rcases lt_or_gt_of_ne hi with hlt | hgt
    · have hp1 : get_params ht rindex (2 * i) = (ht i).re := by
        unfold get_params
        rw [if_pos (by omega), if_pos (by omega : 2 * i % 2 = 0),
          show 2 * i / 2 = i by omega]
      have hp2 : get_params ht rindex (2 * i + 1) = (ht i).im := by
        unfold get_params
        rw [if_pos (by omega), if_neg (by omega : ¬ (2 * i + 1) % 2 = 0),
          show (2 * i + 1) / 2 = i by omega]
      unfold get_ht
      rw [if_pos hlt, hp1, hp2]
    · have hp1 : get_params ht rindex (2 * rindex + 1 + 2 * (i - (rindex + 1)))
          = (ht i).re := by
        unfold get_params
        rw [if_neg (by omega), if_neg (by omega),
          if_pos (by omega : (2 * rindex + 1 + 2 * (i - (rindex + 1))
            - (2 * rindex + 1)) % 2 = 0),
          show rindex + 1 + (2 * rindex + 1 + 2 * (i - (rindex + 1))
            - (2 * rindex + 1)) / 2 = i by omega]
      have hp2 : get_params ht rindex (2 * rindex + 1 + 2 * (i - (rindex + 1)) + 1)
          = (ht i).im := by
        unfold get_params
        rw [if_neg (by omega), if_neg (by omega),
          if_neg (by omega : ¬ (2 * rindex + 1 + 2 * (i - (rindex + 1)) + 1
            - (2 * rindex + 1)) % 2 = 0),
          show rindex + 1 + (2 * rindex + 1 + 2 * (i - (rindex + 1)) + 1
            - (2 * rindex + 1)) / 2 = i by omega]
      unfold get_ht
      rw [if_neg (by omega), if_neg hi, hp1, hp2]
  refine ⟨hmain, hmid, ?_⟩
  intro him i
  by_cases hi : i = rindex
  · subst hi
    rw [hmid]
    apply Complex.ext
    · simp
    · simp [him]
  · exact hmain i hi

theorem get_ht_get_params_roundtrip_witness :
    (1 : ℕ) < 3 ∧
    get_ht (get_params (fun k => ⟨(k : ℝ), 1⟩) 1) 1 0 = ⟨0, 1⟩ ∧
    get_ht (get_params (fun k => ⟨(k : ℝ), 1⟩) 1) 1 2 = ⟨2, 1⟩ ∧
    get_ht (get_params (fun k => ⟨(k : ℝ), 1⟩) 1) 1 1 =
      ((((⟨1, 1⟩ : ℂ)).re : ℝ) : ℂ) := by
  have h := get_ht_get_params_roundtrip (fun k => ⟨(k : ℝ), 1⟩) 3 1 (by decide)
  refine ⟨by decide, ?_, ?_, ?_⟩
  · have := h.1 0 (by decide)
    simpa using this
  · have := h.1 2 (by decide)
    simpa using this
  · simpa using h.2.1

/-- C5: for positive bandwidth and folding frequency and any harmonic index
at most half the channel count, `chan_limits_cs` returns a pair of the form
`(c, N - c)` for a single integer `c` with `0 ≤ c` and `2 * c ≤ N` (the
lower limit is clamped to at most half the channel count). -/
theorem chan_limits_cs_spec (iharm nchan : ℕ) (bw ref_freq : ℝ)
    (hbw : 0 < bw) (hf0 : 0 < ref_freq) (hh : 2 * iharm ≤ nchan) :
    ∃ c : ℤ, chan_limits_cs iharm nchan bw ref_freq = (c, (nchan : ℤ) - c) ∧
      0 ≤ c ∧ 2 * c ≤ (nchan : ℤ) := by
  simp only [chan_limits_cs]
  set ia : ℝ := (ref_freq * (nchan : ℝ) * ((iharm : ℝ) / (bw * 1e6)) - 1) / 2 with hia
  set c0 : ℤ := pytrunc ia + 1 with hc0
  by_cases hcl : ((c0 : ℝ) > (nchan : ℝ) / 2)
  · rw [if_pos hcl]
    refine ⟨pytrunc ((nchan : ℝ) / 2), rfl, ?_, ?_⟩
    · unfold pytrunc
      rw [if_pos (by positivity)]
      exact Int.floor_nonneg.mpr (by positivity)
    · unfold pytrunc
      rw [if_pos (by positivity)]
      have h1 : (⌊(nchan : ℝ) / 2⌋ : ℝ) ≤ (nchan : ℝ) / 2 := Int.floor_le _
      have h2 : ((2 * ⌊(nchan : ℝ) / 2⌋ : ℤ) : ℝ) ≤ ((nchan : ℕ) : ℝ) := by
        push_cast
        linarith
      exact_mod_cast h2
  · rw [if_neg hcl]
    push_neg at hcl
    refine ⟨c0, rfl, ?_, ?_⟩
    · have hnum : 0 ≤ ref_freq * (nchan : ℝ) * ((iharm : ℝ) / (bw * 1e6)) := by positivity
      have hge : -(1 / 2 : ℝ) ≤ ia := by
        rw [hia]
        linarith
      have htr : 0 ≤ pytrunc ia := by
        unfold pytrunc
        split_ifs with h0
        · exact Int.floor_nonneg.mpr h0
        · have hc : ⌈-(1 / 2 : ℝ)⌉ = (0 : ℤ) := by
            rw [Int.ceil_eq_iff]
            norm_num
          calc (0 : ℤ) = ⌈-(1 / 2 : ℝ)⌉ := hc.symm
            _ ≤ ⌈ia⌉ := Int.ceil_le_ceil hge
      omega
    · have h2 : ((2 * c0 : ℤ) : ℝ) ≤ ((nchan : ℕ) : ℝ) := by
        push_cast
        linarith
      exact_mod_cast h2

theorem chan_limits_cs_spec_witness :
    (0 : ℝ) < 10 ∧ (0 : ℝ) < 100 ∧ 2 * 1 ≤ 8 ∧
    ∃ c : ℤ, chan_limits_cs 1 8 10 100 = (c, ((8 : ℕ) : ℤ) - c) ∧
      0 ≤ c ∧ 2 * c ≤ ((8 : ℕ) : ℤ) :=
  ⟨by norm_num, by norm_num, by norm_num,
   chan_limits_cs_spec 1 8 10 100 (by norm_num) (by norm_num) (by norm_num)⟩

/-- C1: the merit returned by `cyclic_merit_lag` equals twice the sum over
all channels and all harmonics other than harmonic 0 of the squared
magnitude of (model minus measured), where the model is built by
`make_model_cs` from the filter decoded by `get_ht` at the reference-lag
index (transformed to the frequency domain) and the reference profile;
consequently the harmonic-0 column of the measured spectrum contributes
nothing to the merit. -/
theorem cyclic_merit_lag_spec (CS : MeritContext) (x : ℕ → ℝ) :
    cyclic_merit_lag CS x =
      2 * ∑ i ∈ range CS.nchan, ∑ h ∈ (range CS.nharm).erase 0,
        Complex.abs ((make_model_cs CS.nchan CS.nharm
            (time2freq CS.nchan (get_ht x CS.rindex)) CS.s0 CS.bw CS.ref_freq).cs i h -
          CS.cs i h) ^ 2 ∧
    ∀ meas : ℕ → ℕ → ℂ, (∀ i h, h ≠ 0 → meas i h = CS.cs i h) →
      cyclic_merit_lag { CS with cs := meas } x = cyclic_merit_lag CS x := by
  have hset : (range CS.nharm).erase 0 = Finset.Ico 1 CS.nharm := by
    ext k
    simp only [Finset.mem_erase, Finset.mem_range, Finset.mem_Ico]
    omega
  constructor
  · rw [hset]
    rfl
  · intro meas hmeas
    unfold cyclic_merit_lag
    dsimp only
    apply congrArg (fun t => 2 * t)
    apply Finset.sum_congr rfl
    intro i _
    apply Finset.sum_congr rfl
    intro h hh
    have h1 : 1 ≤ h := (Finset.mem_Ico.mp hh).1
    rw [hmeas i h (by omega)]

theorem cyclic_merit_lag_spec_witness :
    cyclic_merit_lag
      { nchan := 1, nharm := 2, rindex := 0, bw := 10, ref_freq := 100,
        s0 := (fun _ => 1), cs := (fun _i h => if h = 0 then 7 else 1) } (fun _ => 0) =
    cyclic_merit_lag
      { nchan := 1, nharm := 2, rindex := 0, bw := 10, ref_freq := 100,
        s0 := (fun _ => 1), cs := (fun _ _ => 1) } (fun _ => 0) :=
  (cyclic_merit_lag_spec
      ⟨1, 2, 0, 10, 100, fun _ => 1, fun _ _ => 1⟩ (fun _ => 0)).2
    (fun _i h => if h = 0 then 7 else 1) (fun _i h hh => by simp [hh])

/-- C2: inside the array extent, the model cyclic spectrum returned by
`make_model_cs` equals the elementwise product of the broadcast profile, the
`+0.5`-harmonic shear of the broadcast filter, and the conjugate of the
`-0.5`-harmonic shear, on the valid channel band given by `chan_limits_cs`,
and is exactly zero outside that band. -/
theorem make_model_cs_spec (nchan nharm : ℕ) (hf s0 : ℕ → ℂ) (bw ref_freq : ℝ)
    (i h : ℕ) (hi : i < nchan) (hh : h < nharm) :
    (make_model_cs nchan nharm hf s0 bw ref_freq).cs i h =
      if (chan_limits_cs h nchan bw ref_freq).1 ≤ (i : ℤ) ∧
          (i : ℤ) < (chan_limits_cs h nchan bw ref_freq).2 then
        s0 h * (cyclic_shear_cs nchan nharm (fun i2 _h2 => hf i2) 0.5 bw ref_freq).1 i h *
          (starRingEnd ℂ)
            ((cyclic_shear_cs nchan nharm (fun i2 _h2 => hf i2) (-0.5) bw ref_freq).1 i h)
      else 0 := by
  simp [make_model_cs, cyclic_padding, hh, hi]

theorem make_model_cs_spec_witness :
    ((0 : ℕ) < 2 ∧ (0 : ℕ) < 1) ∧
    (make_model_cs 2 1 (fun _ => 1) (fun _ => 1) 10 100).cs 0 0 =
      (if (chan_limits_cs 0 2 10 100).1 ≤ ((0 : ℕ) : ℤ) ∧
          ((0 : ℕ) : ℤ) < (chan_limits_cs 0 2 10 100).2 then
        (fun _ : ℕ => (1 : ℂ)) 0 *
          (cyclic_shear_cs 2 1 (fun i2 _h2 => (fun _ : ℕ => (1 : ℂ)) i2) 0.5 10 100).1 0 0 *
          (starRingEnd ℂ)
            ((cyclic_shear_cs 2 1 (fun i2 _h2 => (fun _ : ℕ => (1 : ℂ)) i2)
              (-0.5) 10 100).1 0 0)
      else 0) :=
  ⟨⟨by decide, by decide⟩,
   make_model_cs_spec 2 1 (fun _ => 1) (fun _ => 1) 10 100 0 0 (by decide) (by decide)⟩

theorem fscrunch_cs_band {α : Type} [AddCommMonoid α] (nchan nharm : ℕ)
    (bw ref_freq : ℝ) (cs : ℕ → ℕ → α) (h : ℕ) (hh : h < nharm) :
    (fscrunch_cs nchan nharm bw ref_freq cs).1 h =
      ∑ i ∈ (range nchan).filter (fun i : ℕ =>
        (chan_limits_cs h nchan bw ref_freq).1 ≤ (i : ℤ) ∧
        (i : ℤ) < (chan_limits_cs h nchan bw ref_freq).2), cs i h := by
  unfold fscrunch_cs cyclic_padding
  dsimp only
  rw [Finset.sum_filter]
  apply Finset.sum_congr rfl
  intro i hi
  have hi' : i < nchan := Finset.mem_range.mp hi
  simp [hh, hi']

/-- C4: for every harmonic index inside the array, `optimize_profile`
returns 0 exactly when the real channel-summed denominator (the sum of
`|H(-)|^2 |H(+)|^2` over the valid channel band after re-padding) is
non-positive, and otherwise returns the band-summed numerator divided by
that denominator; the function is total, so no exception is raised. -/
theorem optimize_profile_spec (nchan nharm : ℕ) (cs : ℕ → ℕ → ℂ) (hf : ℕ → ℂ)
    (bw ref_freq : ℝ) (h : ℕ) (hh : h < nharm) :
    optimize_profile nchan nharm cs hf bw ref_freq h =
      if profile_denom_band nchan nharm hf bw ref_freq h ≤ 0 then 0
      else profile_numer_band nchan nharm cs hf bw ref_freq h /
        ((profile_denom_band nchan nharm hf bw ref_freq h : ℝ) : ℂ) := by
  have hden := fscrunch_cs_band nchan nharm bw ref_freq
    (fun i h2 => (Complex.abs ((cyclic_shear_cs nchan nharm
        (fun i2 _h2 => hf i2) (-0.5) bw ref_freq).1 i h2) *
      Complex.abs ((cyclic_shear_cs nchan nharm
        (fun i2 _h2 => hf i2) 0.5 bw ref_freq).1 i h2)) ^ 2) h hh
  have hnum := fscrunch_cs_band nchan nharm bw ref_freq
    (fun i h2 => cs i h2 * (cyclic_shear_cs nchan nharm
        (fun i2 _h2 => hf i2) (-0.5) bw ref_freq).1 i h2 *
      (starRingEnd ℂ) ((cyclic_shear_cs nchan nharm
        (fun i2 _h2 => hf i2) 0.5 bw ref_freq).1 i h2)) h hh
  simp only [optimize_profile, profile_denom_band, profile_numer_band]
  rw [hden, hnum]

theorem optimize_profile_spec_witness :
    (0 : ℕ) < 1 ∧
    optimize_profile 1 1 (fun _ _ => 1) (fun _ => 1) 10 100 0 =
      (if profile_denom_band 1 1 (fun _ => 1) 10 100 0 ≤ 0 then 0
       else profile_numer_band 1 1 (fun _ _ => 1) (fun _ => 1) 10 100 0 /
         ((profile_denom_band 1 1 (fun _ => 1) 10 100 0 : ℝ) : ℂ)) :=
  ⟨by decide, optimize_profile_spec 1 1 (fun _ _ => 1) (fun _ => 1) 10 100 0 (by decide)⟩

/-- C10: `fscrunch_cs` mutates its argument in place: `cstmp = cs[:]` is a
numpy view, so the `cyclic_padding` call inside zeroes the caller's entries
outside each harmonic's valid channel range.  In the state-passing model the
post-state of the argument equals the padded array: out-of-band entries are
zero and in-band entries are unchanged. -/
theorem fscrunch_cs_mutation (nchan nharm : ℕ) (bw ref_freq : ℝ)
    (cs : ℕ → ℕ → ℂ) (i h : ℕ) (hi : i < nchan) (hh : h < nharm) :
    (fscrunch_cs nchan nharm bw ref_freq cs).2 i h
        = cyclic_padding nchan nharm bw ref_freq cs i h ∧
    (¬ ((chan_limits_cs h nchan bw ref_freq).1 ≤ (i : ℤ) ∧
        (i : ℤ) < (chan_limits_cs h nchan bw ref_freq).2) →
      (fscrunch_cs nchan nharm bw ref_freq cs).2 i h = 0) ∧
    (((chan_limits_cs h nchan bw ref_freq).1 ≤ (i : ℤ) ∧
        (i : ℤ) < (chan_limits_cs h nchan bw ref_freq).2) →
      (fscrunch_cs nchan nharm bw ref_freq cs).2 i h = cs i h) := by
  refine ⟨rfl, ?_, ?_⟩ <;> intro hb <;>
    simp [fscrunch_cs, cyclic_padding, hh, hi, hb]

theorem fscrunch_cs_mutation_witness :
    ¬ ((chan_limits_cs 0 4 10 100).1 ≤ ((0 : ℕ) : ℤ) ∧
        ((0 : ℕ) : ℤ) < (chan_limits_cs 0 4 10 100).2) ∧
    (fscrunch_cs 4 1 10 100 (fun _ _ => (1 : ℂ))).2 0 0 = 0 := by
  have hceil : (⌈-(1 / 2 : ℝ)⌉ : ℤ) = 0 := by
    rw [Int.ceil_eq_iff]
    norm_num
  have hcl : chan_limits_cs 0 4 10 100 = (1, 3) := by
    unfold chan_limits_cs pytrunc
    norm_num [hceil]
  have hb : ¬ ((chan_limits_cs 0 4 10 100).1 ≤ ((0 : ℕ) : ℤ) ∧
      ((0 : ℕ) : ℤ) < (chan_limits_cs 0 4 10 100).2) := by
    rw [hcl]
    norm_num
  exact ⟨hb, (fscrunch_cs_mutation 4 1 10 100 (fun _ _ => 1) 0 0
    (by norm_num) (by norm_num)).2.1 hb⟩

/-- C3 (amended): for every real periodic spectrum with an even, positive
number `nbin` of phase bins, the round trip `cs2ps (ps2cs P)` under the
program's retained normalization convention reconstructs `nbin/(nbin/2+1)`
times `P` exactly (in exact arithmetic), not `P` itself: the asymmetric
convention divides by the output length `nbin/2+1` instead of `nbin`. -/
theorem cs2ps_ps2cs_scaled (nbin m : ℕ) (hm : 0 < m) (hnb : nbin = 2 * m)
    (ps : ℕ → ℕ → ℝ) (i j : ℕ) (hj : j < nbin) :
    cs2ps (nbin / 2 + 1) (ps2cs nbin ps) i j
      = ((nbin : ℝ) / ((nbin / 2 + 1 : ℕ) : ℝ)) * ps i j := by
  subst hnb
  have hdiv : 2 * m / 2 = m := by omega
  unfold cs2ps ps2cs
  rw [hdiv]
  have hK : ((m + 1 : ℕ) : ℂ) = (((m + 1 : ℕ) : ℝ) : ℂ) := by push_cast; ring
  rw [hK]
  rw [irfft_div (m + 1) (rfft (2 * m) (ps i)) ((m + 1 : ℕ) : ℝ) j]
  rw [irfft_rfft m hm (ps i) j hj]
  have hm1 : m + 1 - 1 = m := by omega
  rw [hm1]
  push_cast
  ring

/-- C3 (counterexample): with 4 phase bins and the delta-function periodic
spectrum, the round trip `cs2ps (ps2cs P)` returns `4/3` at bin 0 where the
original spectrum has value 1, so the round trip does not reconstruct `P`
even in exact arithmetic. -/
theorem cs2ps_ps2cs_not_identity :
    cs2ps (4 / 2 + 1) (ps2cs 4 psdelta) 0 0 ≠ psdelta 0 0 := by
  have hr : ∀ h : ℕ, rfft 4 (psdelta 0) h = 1 := by
    intro h
    unfold rfft psdelta
    rw [Finset.sum_range_succ, Finset.sum_range_succ, Finset.sum_range_succ,
      Finset.sum_range_succ, Finset.sum_range_zero]
    norm_num [cexp]
  have hps : ps2cs 4 psdelta 0 = fun _ => (((1 / 3 : ℝ)) : ℂ) := by
    funext h
    unfold ps2cs
    rw [hr]
    push_cast
    norm_num
  unfold cs2ps
  rw [hps]
  unfold irfft
  have hico : Finset.Ico 1 (4 / 2 + 1 - 1) = {1} := by decide
  rw [hico, Finset.sum_singleton]
  have hc : cexp (2 * (4 / 2 + 1 - 1)) (((0 : ℕ) : ℤ) * (1 : ℕ)) = 1 := by
    norm_num
    exact cexp_zero 4
  rw [hc]
  unfold psdelta
  norm_num

theorem cs2ps_ps2cs_scaled_witness :
    0 < 2 ∧ 4 = 2 * 2 ∧ 0 < 4 ∧
    cs2ps (4 / 2 + 1) (ps2cs 4 psdelta) 0 0
      = (((4 : ℕ) : ℝ) / ((4 / 2 + 1 : ℕ) : ℝ)) * psdelta 0 0 :=
  ⟨by decide, by decide, by decide,
   cs2ps_ps2cs_scaled 4 2 (by decide) (by decide) psdelta 0 0 (by decide)⟩

end
